import Mathlib

/-!
Verification of the band-structure core of `bdwork` (`src/bdwork/band.py`).

The Python source is shallowly embedded: numpy arrays become lists of
rationals, fallible operations return `Option`/`Except`, and Python list
indexing (including negative indexing) is modelled explicitly.  Each claim
about the code is settled by a theorem over these definitions.
-/

namespace Bdwork

/-- A fractional reciprocal-space k-point (three coordinates), over `ℚ`. -/
def Vec3 : Type := ℚ × ℚ × ℚ

instance : DecidableEq Vec3 := by
  unfold Vec3
  infer_instance

/-! ## Custom k-path resolution (`Band._get_custom_kpath`, band.py:295-299)

`flip = (-np.sign(custom_kpath) + 1).astype(bool)` and
`inds = (np.abs(custom_kpath) - 1).astype(int)`.
`astype(bool)` sends any nonzero value to `True`. -/

/-- `inds = np.abs(custom_kpath) - 1`, kept as integers because the value
`-1` (from a spec entry `0`) is meaningful under Python indexing. -/
def customKpathInds (spec : List ℤ) : List ℤ :=
  spec.map (fun x => |x| - 1)

/-- `flip = (-np.sign(custom_kpath) + 1).astype(bool)`: an entry flips its
segment exactly when `-sign(x) + 1` is nonzero, i.e. when `x ≤ 0`. -/
def customKpathFlip (spec : List ℤ) : List Bool :=
  spec.map (fun x => decide (-x.sign + 1 ≠ 0))

/-- Python list indexing: a non-negative index reads from the front and must
be `< len`; a negative index `i` reads `len + i` and must satisfy `-i ≤ len`.
`none` models the `IndexError` a Python out-of-range access raises. -/
def pythonGet {α : Type} (l : List α) (i : ℤ) : Option α :=
  if 0 ≤ i then l.get? i.toNat
  else if (-i) ≤ (l.length : ℤ) then l.get? (l.length - (-i).toNat)
  else none

/-- The segment accesses `slices[i]` performed by `Band._get_k_distance`
(band.py:885-906) for each resolved custom-path index, in order.  The whole
resolution fails (Python `IndexError`) as soon as one access fails. -/
def resolveKdistSegments {α : Type} (slices : List α) : List ℤ → Option (List α)
  | [] => some []
  | x :: xs =>
    match pythonGet slices (|x| - 1), resolveKdistSegments slices xs with
    | some s, some r => some (s :: r)
    | _, _ => none

/-! ## Fermi-energy extraction (`Band.__init__`, band.py:125-137)

The constructor greps `E-fermi` out of OUTCAR, strips the output, raises if
it is empty, takes token 2 of a whitespace split (`.split()[2]`), and
converts it with `float(...)`; `IndexError`/`ValueError` are re-raised as a
fatal `ValueError`.  The grep output enters the embedding already tokenized
by Python's `str.split()` (a whitespace-stripped string is falsy exactly
when its token list is empty), and `float` is Python's numeric parser,
an external collaborator modelled as the abstract `parseNum` parameter. -/

/-- The E-fermi extraction of `Band.__init__`: empty grep output, fewer
than three tokens, or an unparsable token are fatal errors; on success the
parsed value plus `shift_efermi` is stored.  No default is ever
substituted. -/
def loadEfermi (efermiTokens : List String) (parseNum : String → Option ℚ)
    (shiftEfermi : ℚ) : Except String ℚ :=
  if efermiTokens = [] then .error "No E-fermi value found"
  else
    match efermiTokens.get? 2 with
    | none => .error "IndexError"
    | some tok =>
      match parseNum tok with
      | none => .error "could not convert string to float"
      | some v => .ok (v + shiftEfermi)

/-! ## soc_axis guard (`Band.__init__` band.py:286-290,
`Band._load_soc_spin_projection` band.py:605-608)

`_load_soc_spin_projection` raises when `LSORBIT` is false, but the
constructor only calls it under `soc_axis is not None and self.lsorbit`. -/

/-- The guard at the top of `_load_soc_spin_projection`: raises
`BaseException` when the calculation is not spin-orbit. -/
def loadSocSpinProjectionGuard (lsorbit : Bool) : Except String Unit :=
  if !lsorbit then
    .error "You selected soc_axis for a non-soc axis calculation, please set soc_axis=None"
  else
    .ok ()

/-- The constructor's spin-projection step: `_load_soc_spin_projection` runs
only when `soc_axis is not None and self.lsorbit`.  The returned `Bool`
records whether `self.spin_projections` was attached. -/
def bandInitSocStep (socAxis : Option String) (lsorbit : Bool) :
    Except String Bool :=
  if socAxis.isSome && lsorbit then
    (loadSocSpinProjectionGuard lsorbit).map (fun _ => true)
  else
    .ok false

/-! ## HSE zero-weight filtering and caching
(`Band._load_bands` band.py:383-398, `Band._load_projected_bands`
band.py:563-591)

`_load_bands` keeps only the columns whose k-point weight is zero *before*
`np.save(eigenvalues.npy)`; `_load_projected_bands` calls
`np.save(projected_eigenvalues.npy)` first and applies the same column
filter afterwards.  Eigenvalue rows are indexed `[band][kpoint]`; the
per-cell channel selection, pseudo-spin separation and squaring
(band.py:568-584, 591) act inside a cell and never touch the k axis, so a
cell is an opaque `α` here. -/

/-- `np.where(kpoint_weights == 0)[0]`: the indices of zero-weight k-points,
in increasing order. -/
def zeroWeightIdx (weights : List ℚ) : List ℕ :=
  (List.range weights.length).filter (fun i => weights.get? i = some 0)

/-- Fancy-indexing a row by a list of column indices, `row[cols]`. -/
def selectCols {α : Type} (cols : List ℕ) (row : List α) : List α :=
  cols.filterMap (fun i => row.get? i)

/-- The fresh-compute path of `_load_bands` (non-spin-polarized channel):
Fermi-shift, then, iff `hse`, keep only zero-weight columns of the
eigenvalues and k-points, then write `eigenvalues.npy`.  Result:
`((cachedEigenvalues, cachedKpoints), (returnedEigenvalues, returnedKpoints))`. -/
def loadBandsFresh (hse : Bool) (eigenvalues : List (List ℚ))
    (kpoints : List Vec3) (weights : List ℚ) (efermi : ℚ) :
    (List (List ℚ) × List Vec3) × (List (List ℚ) × List Vec3) :=
  let shifted := eigenvalues.map (fun band => band.map (fun e => e - efermi))
  if hse then
    let zw := zeroWeightIdx weights
    let filteredE := shifted.map (selectCols zw)
    let filteredK := selectCols zw kpoints
    ((filteredE, filteredK), (filteredE, filteredK))
  else
    ((shifted, kpoints), (shifted, kpoints))

/-- The fresh-compute path of `_load_projected_bands`:
`np.save(projected_eigenvalues.npy)` happens first (band.py:563-566) and the
zero-weight column filter runs afterwards (band.py:586-589).  Result:
`(cachedProjections, returnedProjections)`. -/
def loadProjectedFresh {α : Type} (hse : Bool) (proj : List (List α))
    (weights : List ℚ) : List (List α) × List (List α) :=
  let cached := proj
  let filtered :=
    if hse then proj.map (selectCols (zeroWeightIdx weights)) else proj
  (cached, filtered)

/-! ## Pseudo-spin separation (`Band._load_soc_spin_projection`
band.py:644-652, `Band._load_projected_bands` band.py:570-584)

`separated[x > 0, 0] = x[x > 0]` and `separated[x < 0, 1] = -x[x < 0]` on a
zero-initialized array; the `np.square` of `_load_projected_bands` is
applied only after this separation. -/

/-- The "up" channel of the separation: `x` where `x > 0`, else the
initial `0`. -/
def sepUp (x : ℚ) : ℚ := if 0 < x then x else 0

/-- The "down" channel of the separation: `-x` where `x < 0`, else the
initial `0`. -/
def sepDown (x : ℚ) : ℚ := if x < 0 then -x else 0

/-- Element-wise pseudo-spin separation of a signed projection array into
the `(up, down)` channel pair. -/
def separateProjections (l : List ℚ) : List (ℚ × ℚ) :=
  l.map (fun x => (sepUp x, sepDown x))

/-- The spin-orbit branch of `_load_projected_bands`: select a pseudo-spin
channel of the separation, then square (band.py:591).  Squaring happens
after the sign separation, never before. -/
def loadProjectedSocWeights (l : List ℚ) (down : Bool) : List ℚ :=
  (l.map (fun x => if down then sepDown x else sepUp x)).map (fun v => v ^ 2)

/-! ## Projection aggregation (`Band._sum_atoms` band.py:743-793,
`Band._sum_elements` band.py:795-872)

A projection tensor cell is the `[atom][orbital]` matrix attached to one
`(band, kpoint)` entry; the aggregations act identically and independently
on every such cell, so they are embedded at the cell level. -/

/-- Element-wise sum of two orbital vectors (`numpy` broadcasting of `+`
over the orbital axis; projection rows of one tensor share one length). -/
def vecAdd (a b : List ℚ) : List ℚ := List.zipWith (· + ·) a b

/-- `np.sum` of a stack of orbital vectors of length `L` along the stacking
axis, starting from the zero vector. -/
def vecSum (L : ℕ) : List (List ℚ) → List ℚ
  | [] => List.replicate L 0
  | v :: vs => vecAdd v (vecSum L vs)

/-- `element_list = np.hstack([[symbols[i]] * natoms[i] ...])`
(band.py:820-822): one symbol per atom, in POSCAR block order. -/
def elementList (symbols : List String) (natoms : List ℕ) : List String :=
  (symbols.zip natoms).flatMap (fun p => List.replicate p.2 p.1)

/-- `element_indices = [np.where(np.isin(element_list, element))[0] ...]`
(band.py:824-826): for each requested element, every atom index carrying
that symbol, in increasing order. -/
def elementIndices (elements : List String) (elemList : List String) :
    List (List ℕ) :=
  elements.map (fun e =>
    (List.range elemList.length).filter (fun i => elemList.get? i = some e))

/-- `_sum_atoms` with `spd=False`: `projected_eigenvalues.sum(axis=3)`, the
per-atom total over the orbital axis of one cell (band.py:788). -/
def sumAtomsCell (cell : List (List ℚ)) : List ℚ :=
  cell.map (fun row => row.sum)

/-- `element_orbitals` of `_sum_elements` (band.py:828-836): per requested
element, `np.sum(projected_eigenvalues[:, :, ind, :], axis=2)` — the sum of
the selected atoms' orbital vectors. -/
def elementOrbitalsCell (symbols : List String) (natoms : List ℕ) (L : ℕ)
    (elements : List String) (cell : List (List ℚ)) : List (List ℚ) :=
  (elementIndices elements (elementList symbols natoms)).map (fun idxs =>
    vecSum L (idxs.filterMap (fun i => cell.get? i)))

/-- `element_array = np.sum(element_orbitals, axis=3)` of `_sum_elements`
with `orbitals=False, spd=False` (band.py:868): per element, the total over
the orbital axis. -/
def sumElementsCell (symbols : List String) (natoms : List ℕ) (L : ℕ)
    (elements : List String) (cell : List (List ℚ)) : List ℚ :=
  (elementOrbitalsCell symbols natoms L elements cell).map (fun v => v.sum)

/-! ## Regular-calculation tick marks (`Band._get_kticks`, band.py:912-985)

For a non-HSE, non-unfolded dataset without a custom path the function
formats the KPOINTS labels (Γ-substitution for the literal `G`), groups the
segment-boundary labels, merges equal adjoining labels, and places one
vertical line per boundary at
`kpoints_index = [0] + [(i+1)*num_kpts - 1 for i in range(...)]`. -/

/-- `f"${k}$" if k != "G" else "$\Gamma$"` (band.py:941-943). -/
def gammaFormat (k : String) : String :=
  if k = "G" then "$\\Gamma$" else "$" ++ k ++ "$"

/-- `group_index` (band.py:946-953): the first and last high-symmetry point
index stand alone; every odd-position index pairs with its successor. -/
def groupIndex (inds : List ℕ) : List (List ℕ) :=
  (List.range inds.length).flatMap (fun i =>
    (if i = 0 then [[inds.getD i 0]] else []) ++
    (if i % 2 = 1 ∧ i ≠ inds.length - 1 then
      [[inds.getD i 0, inds.getD (i + 1) 0]] else []) ++
    (if i ≠ 0 ∧ i = inds.length - 1 then [[inds.getD i 0]] else []))

/-- The label-merging loop (band.py:955-974): a singleton group keeps its
label; a pair with equal labels collapses to one; otherwise the labels join
with a pipe, `"$A$|$B$"` rewritten to `"$A|B$"`. -/
def mergeLabels (kptsLabels : List String) (groups : List (List ℕ)) :
    List String :=
  groups.map (fun g =>
    match g with
    | [i] => kptsLabels.getD i ""
    | [i, j] =>
      let a := kptsLabels.getD i ""
      let b := kptsLabels.getD j ""
      if a = b then a else (a ++ "|" ++ b).replace "$|$" "|"
    | _ => "")

/-- `kpoints_index = [0] + [(i+1)*num_kpts - 1 for i in
range(int((len(high_sym_points_inds)+1)/2))]` (band.py:976-979). -/
def kticksIndex (numKpts : ℕ) (numInds : ℕ) : List ℕ :=
  0 :: (List.range ((numInds + 1) / 2)).map (fun i => (i + 1) * numKpts - 1)

/-- `_get_kticks` without a custom path: the tick positions (k-point
indices into the concatenated distance array) and the merged tick labels
derived from the raw KPOINTS labels. -/
def getKticks (numKpts : ℕ) (labelsRaw : List String) :
    List ℕ × List String :=
  let kptsLabels := labelsRaw.map gammaFormat
  let inds := List.range labelsRaw.length
  (kticksIndex numKpts inds.length, mergeLabels kptsLabels (groupIndex inds))

/-! ## Cumulative k-distance (`Band._get_k_distance`, band.py:881-910)

Per segment, `kdist = np.r_[0, np.cumsum(np.linalg.norm(np.diff(kpt_c,
axis=0), axis=1))]`; segment `0` is kept as is and every later segment is
shifted by the final entry of the previously emitted segment.  The
Euclidean row norm of the metric-transformed difference vectors is
irrational in general, so it enters the embedding as an abstract
non-negative step-length function `nrm` on difference vectors. -/

/-- Component-wise difference of consecutive k-points, `np.diff(axis=0)`. -/
def kptDiffs : List Vec3 → List Vec3
  | a :: b :: rest =>
    (b.1 - a.1, b.2.1 - a.2.1, b.2.2 - a.2.2) :: kptDiffs (b :: rest)
  | _ => []

/-- `np.cumsum`: running totals of a list. -/
def cumsum (l : List ℚ) : List ℚ :=
  cumsumFrom 0 l
where
  cumsumFrom (acc : ℚ) : List ℚ → List ℚ
    | [] => []
    | x :: xs => (acc + x) :: cumsumFrom (acc + x) xs

/-- One segment's raw cumulative distance,
`np.r_[0, np.cumsum(norms of diffs)]`. -/
def kdistSeg (nrm : Vec3 → ℚ) (kpts : List Vec3) : List ℚ :=
  0 :: cumsum ((kptDiffs kpts).map nrm)

/-- The chaining loop of `_get_k_distance` for the segments after the
first: each segment's distances are shifted by the last entry of the
previously emitted segment. -/
def kDistancesFrom (nrm : Vec3 → ℚ) (offset : ℚ) :
    List (List Vec3) → List (List ℚ)
  | [] => []
  | s :: rest =>
    let kd := (kdistSeg nrm s).map (fun d => d + offset)
    kd :: kDistancesFrom nrm (kd.getLastD 0) rest

/-- `_get_k_distance`: the first segment is emitted unshifted (`j == 0`
branch) and the rest are chained. -/
def kDistances (nrm : Vec3 → ℚ) : List (List Vec3) → List (List ℚ)
  | [] => []
  | s :: rest =>
    let kd := kdistSeg nrm s
    kd :: kDistancesFrom nrm (kd.getLastD 0) rest

/-! ## Per-segment interpolation (`Band._get_interpolated_data_segment`,
band.py:1319-1337)

The source builds `scipy.interpolate.interp1d(wave_vectors, data, kind)`
(`kind="cubic"` for eigenvalues, `kind="linear"` for weights), evaluates it
on `np.linspace(wave_vectors.min(), wave_vectors.max(), new_n)`, and for
weights clamps negative results to zero (`crop_zero`).

Modelled from the spec: `scipy.interpolate.interp1d` itself is an external
collaborator whose source is not part of this repository; following the
spec's Interpolator contract (section 4.4) it is embedded as exact
piecewise-linear interpolation for `kind="linear"` and as an interpolating
cubic spline (natural boundary conditions, tridiagonal second-derivative
system solved by the Thomas algorithm) for `kind="cubic"`, both over `ℚ`. -/

/-- `np.linspace(a, b, n)`: `n` evenly spaced points from `a` to `b`
inclusive. -/
def linspace (a b : ℚ) (n : ℕ) : List ℚ :=
  (List.range n).map (fun i => a + (b - a) * i / (n - 1))

/-- `l.min()` of a nonempty numpy array. -/
def listMin (l : List ℚ) : ℚ := l.foldr min (l.headD 0)

/-- `l.max()` of a nonempty numpy array. -/
def listMax (l : List ℚ) : ℚ := l.foldr max (l.headD 0)

/-- The knot interval containing a query: the index of the last knot `≤ q`,
clamped into `[0, xs.length - 2]` so an interval `[x_i, x_{i+1}]` always
exists. -/
def findInterval (xs : List ℚ) (q : ℚ) : ℕ :=
  min (xs.countP (fun x => x ≤ q) - 1) (xs.length - 2)

/-- Piecewise-linear interpolation of `(xs, ys)` at one query point. -/
def linInterp (xs ys : List ℚ) (q : ℚ) : ℚ :=
  let i := findInterval xs q
  let x0 := xs.getD i 0
  let x1 := xs.getD (i + 1) 0
  let y0 := ys.getD i 0
  let y1 := ys.getD (i + 1) 0
  y0 + (y1 - y0) * (q - x0) / (x1 - x0)

/-- Forward sweep of the Thomas tridiagonal solver over rows
`(a, b, c, d)` (sub-diagonal, diagonal, super-diagonal, right-hand side),
carrying the previous modified coefficients. -/
def thomasFwd (cp dp : ℚ) : List (ℚ × ℚ × ℚ × ℚ) → List (ℚ × ℚ)
  | [] => []
  | (a, b, c, d) :: rest =>
    let m := b - a * cp
    let cNew := c / m
    let dNew := (d - a * dp) / m
    (cNew, dNew) :: thomasFwd cNew dNew rest

/-- Back substitution of the Thomas solver: `x_i = d'_i - c'_i * x_{i+1}`,
with `x` past the last row read as `0`. -/
def thomasBack : List (ℚ × ℚ) → List ℚ
  | [] => []
  | (c, d) :: rest =>
    let xs := thomasBack rest
    (d - c * xs.headD 0) :: xs

/-- The Thomas tridiagonal solver. -/
def thomas (rows : List (ℚ × ℚ × ℚ × ℚ)) : List ℚ :=
  thomasBack (thomasFwd 0 0 rows)

/-- The interior rows of the natural-cubic-spline second-derivative system
for knots `xs` and values `ys`: for `i = 1 .. n-2`, with `h_i = x_{i+1} -
x_i`, the row `h_{i-1} M_{i-1} + 2(h_{i-1}+h_i) M_i + h_i M_{i+1} =
6((y_{i+1}-y_i)/h_i - (y_i-y_{i-1})/h_{i-1})`. -/
def splineRows (xs ys : List ℚ) : List (ℚ × ℚ × ℚ × ℚ) :=
  (List.range' 1 (xs.length - 2)).map (fun i =>
    let hPrev := xs.getD i 0 - xs.getD (i - 1) 0
    let hNext := xs.getD (i + 1) 0 - xs.getD i 0
    (hPrev, 2 * (hPrev + hNext), hNext,
      6 * ((ys.getD (i + 1) 0 - ys.getD i 0) / hNext -
        (ys.getD i 0 - ys.getD (i - 1) 0) / hPrev)))

/-- The spline's second derivatives at all knots: zero at both ends
(natural boundary), the Thomas solution inside. -/
def splineMs (xs ys : List ℚ) : List ℚ :=
  0 :: (thomas (splineRows xs ys) ++ [0])

/-- Evaluation of the natural cubic spline through `(xs, ys)` at one query
point. -/
def cubicInterp (xs ys : List ℚ) (q : ℚ) : ℚ :=
  let ms := splineMs xs ys
  let i := findInterval xs q
  let h := xs.getD (i + 1) 0 - xs.getD i 0
  let mi := ms.getD i 0
  let mi1 := ms.getD (i + 1) 0
  let yi := ys.getD i 0
  let yi1 := ys.getD (i + 1) 0
  let b := (yi1 - yi) / h - h * (2 * mi + mi1) / 6
  let t := q - xs.getD i 0
  yi + b * t + mi / 2 * t ^ 2 + (mi1 - mi) / (6 * h) * t ^ 3

/-- `_get_interpolated_data_segment`: resample one segment's data onto
`new_n` evenly spaced points spanning the segment, with `kind` selecting
cubic (eigenvalues) or linear (weights) interpolation, and `crop_zero`
clamping negative interpolated values to zero.  Returns
`(new_wave_vectors, new_data)`. -/
def getInterpolatedDataSegment (waveVectors data : List ℚ) (newN : ℕ)
    (cropZero : Bool) (cubic : Bool) : List ℚ × List ℚ :=
  let newWv := linspace (listMin waveVectors) (listMax waveVectors) newN
  let interped := newWv.map (fun q =>
    if cubic then cubicInterp waveVectors data q
    else linInterp waveVectors data q)
  (newWv, if cropZero then interped.map (fun v => if v < 0 then 0 else v)
    else interped)

/-! # Helper lemmas -/

/-- `List.get?` yields a value exactly when the index is in range. -/
theorem get?_isSome_iff {α : Type} (l : List α) (n : ℕ) :
    (l.get? n).isSome = true ↔ n < l.length := by
  rw [List.get?_eq_getElem?, Option.isSome_iff_exists]
  constructor
  · rintro ⟨a, ha⟩
    exact (List.getElem?_eq_some.mp ha).1
  · intro hn
    exact ⟨l[n], List.getElem?_eq_getElem hn⟩

/-- `pythonGet` with the index `|x| - 1` succeeds on a nonempty list
exactly when `|x|` does not exceed the list length: indices `0 …
len - 1` read directly, and the index `-1` produced by `x = 0` wraps to
the last element. -/
theorem pythonGet_abs_sub_one_isSome {α : Type} (l : List α) (x : ℤ)
    (h : l ≠ []) :
    (pythonGet l (|x| - 1)).isSome = true ↔ |x| ≤ (l.length : ℤ) := by
  have hlen : 0 < l.length := List.length_pos.mpr h
  unfold pythonGet
  rcases Int.le_or_lt 1 |x| with hx | hx
  · rw [if_pos (by omega), get?_isSome_iff]
    omega
  · have hx0 : |x| = 0 := by
      have := abs_nonneg x
      omega
    rw [hx0, if_neg (by omega), if_pos (by omega), get?_isSome_iff]
    omega

theorem resolveKdistSegments_isSome {α : Type} (l : List α) (h : l ≠ [])
    (spec : List ℤ) :
    (resolveKdistSegments l spec).isSome = true ↔
      ∀ x ∈ spec, |x| ≤ (l.length : ℤ) := by
  induction spec with
  | nil => simp [resolveKdistSegments]
  | cons x xs ih =>
    have hx := pythonGet_abs_sub_one_isSome l x h
    simp only [resolveKdistSegments]
    rcases hg : pythonGet l (|x| - 1) with _ | s <;>
      rcases hr : resolveKdistSegments l xs with _ | r <;>
      rw [hg] at hx <;> rw [hr] at ih <;>
      simp only [Option.isSome_none, Option.isSome_some,
        Bool.false_eq_true, false_iff, eq_self_iff_true, true_iff,
        List.forall_mem_cons] at hx ih ⊢
    · intro hc
      exact hx hc.1
    · intro hc
      exact hx hc.1
    · intro hc
      exact ih hc.2
    · exact ⟨hx, ih⟩

/-- On a nonempty list, Python index `-1` reads the last element. -/
theorem pythonGet_neg_one {α : Type} (l : List α) (h : l ≠ []) :
    pythonGet l (-1) = some (l.getLast h) := by
  have hlen : 0 < l.length := List.length_pos.mpr h
  unfold pythonGet
  rw [if_neg (by omega), if_pos (by omega)]
  rw [List.getLast_eq_getElem]
  rw [List.get?_eq_getElem?]
  exact List.getElem?_eq_getElem (by omega)

/-! # Claim theorems -/

/-- C1, counterexample: the custom-path entry `0` has `|0| = 0` outside
`[1, segmentCount]`, yet `_get_k_distance`'s segment lookup succeeds on a
2-segment dataset instead of raising: the spec entry is silently
accepted. -/
theorem claim1_kpath_bounds_counterexample :
    (resolveKdistSegments ["s1", "s2"] [(0 : ℤ)]).isSome = true ∧
      ¬(1 ≤ |(0 : ℤ)| ∧ |(0 : ℤ)| ≤ 2) := by
  decide

/-- C1, amended: a custom-path spec resolves without error exactly when
every entry has `|index| ≤ segmentCount`; an entry with `|index| >
segmentCount` raises a fatal (uncaught) `IndexError`, but the entry `0`
(`|index| = 0`) is silently accepted through Python negative indexing
rather than rejected. -/
theorem claim1_kpath_bounds_amended {α : Type} (slices : List α)
    (h : slices ≠ []) (spec : List ℤ) :
    (resolveKdistSegments slices spec).isSome = true ↔
      ∀ x ∈ spec, |x| ≤ (slices.length : ℤ) :=
  resolveKdistSegments_isSome slices h spec

theorem claim1_kpath_bounds_amended_witness :
    (resolveKdistSegments ["s1", "s2", "s3"] [(2 : ℤ), -1]).isSome = true :=
  (claim1_kpath_bounds_amended ["s1", "s2", "s3"] (by decide)
    [(2 : ℤ), -1]).mpr (by decide)

/-- C10: a `custom_kpath` entry `0` is accepted without error, resolves to
segment index `-1` with the reversed flag `True`, and Python negative
indexing makes it select the dataset's last natural segment. -/
theorem claim10_zero_entry {α : Type} (segs : List α) (h : segs ≠ []) :
    customKpathInds [0] = [-1] ∧ customKpathFlip [0] = [true] ∧
      resolveKdistSegments segs [0] = some [segs.getLast h] := by
  refine ⟨by decide, by decide, ?_⟩
  unfold resolveKdistSegments
  have : |(0 : ℤ)| - 1 = -1 := by decide
  rw [this, pythonGet_neg_one segs h]
  rfl

theorem claim10_zero_entry_witness :
    customKpathInds [0] = [-1] ∧ customKpathFlip [0] = [true] ∧
      resolveKdistSegments ["s1", "s2"] [0] = some ["s2"] :=
  claim10_zero_entry ["s1", "s2"] (by decide)

/-- C3: a non-spin-orbit dataset (`LSORBIT` false) constructed with
`soc_axis='x'` finishes construction normally with no spin projections
attached — the guard `soc_axis is not None and self.lsorbit` skips
`_load_soc_spin_projection`, so the raise that function holds for exactly
this misconfiguration is dead code on the constructor path and the request
is silently ignored instead of fatal. -/
theorem claim3_soc_axis_not_fatal :
    bandInitSocStep (some "x") false = .ok false ∧
      ∃ msg, loadSocSpinProjectionGuard false = .error msg :=
  ⟨rfl, _, rfl⟩

/-- C8: `Band.__init__` is fatal whenever the grep for `E-fermi` returns
nothing, returns fewer than three tokens, or returns a token that does not
parse as a number; and every successful construction stores exactly the
parsed value plus `shift_efermi` — no default Fermi energy exists. -/
theorem claim8_efermi_fatal (toks : List String)
    (parseNum : String → Option ℚ) (shift : ℚ) :
    ((toks = [] ∨ toks.get? 2 = none ∨
        (∃ t, toks.get? 2 = some t ∧ parseNum t = none)) →
      ∃ msg, loadEfermi toks parseNum shift = .error msg) ∧
    (∀ v, loadEfermi toks parseNum shift = .ok v →
      ∃ t x, toks.get? 2 = some t ∧ parseNum t = some x ∧
        v = x + shift) := by
  unfold loadEfermi
  constructor
  · rintro (he | he | ⟨t, ht, hp⟩)
    · rw [if_pos he]
      exact ⟨_, rfl⟩
    · by_cases h0 : toks = []
      · rw [if_pos h0]; exact ⟨_, rfl⟩
      · refine ⟨"IndexError", ?_⟩
        rw [if_neg h0, he]
    · by_cases h0 : toks = []
      · rw [if_pos h0]; exact ⟨_, rfl⟩
      · refine ⟨"could not convert string to float", ?_⟩
        rw [if_neg h0, ht]
        show (match parseNum t with
          | none => Except.error "could not convert string to float"
          | some v => Except.ok (v + shift)) = _
        rw [hp]
  · intro v hv
    by_cases h0 : toks = []
    · rw [if_pos h0] at hv; cases hv
    · rw [if_neg h0] at hv
      rcases hg : toks.get? 2 with _ | t
      · rw [hg] at hv; cases hv
      · rw [hg] at hv
        change (match parseNum t with
          | none => Except.error "could not convert string to float"
          | some w => Except.ok (w + shift)) = Except.ok v at hv
        rcases hp : parseNum t with _ | x
        · rw [hp] at hv; cases hv
        · rw [hp] at hv
          simp only [Except.ok.injEq] at hv
          exact ⟨t, x, rfl, hp, hv.symm⟩

theorem claim8_efermi_fatal_witness :
    ∃ msg, loadEfermi [] (fun _ => none) 0 = Except.error msg :=
  (claim8_efermi_fatal [] (fun _ => none) 0).1 (Or.inl rfl)

/-- C2, counterexample: on an HSE dataset with one finite-weight SCF
k-point (weights `[1, 0]`) the array written to
`projected_eigenvalues.npy` still holds both k-point columns, while the
zero-weight filter would keep only the second — the cached projection
array does not exclude the finite-weight k-point. -/
theorem claim2_hse_cache_counterexample :
    (loadProjectedFresh true [[(10 : ℚ), 20]] [1, 0]).1 = [[10, 20]] ∧
      ([[(10 : ℚ), 20]]).map (selectCols (zeroWeightIdx [1, 0])) = [[20]] ∧
      ([[(10 : ℚ), 20]] : List (List ℚ)) ≠ [[20]] := by
  refine ⟨rfl, ?_, by decide⟩
  decide

/-- C2, amended: for HSE datasets the zero-weight filter is applied
exactly once for each loader, but at different points — upstream of the
`eigenvalues.npy` write in `_load_bands` (the cached eigenvalues and
k-points already exclude finite-weight SCF points, and what is returned is
exactly what is cached), while in `_load_projected_bands` the filter runs
downstream of the `projected_eigenvalues.npy` write, so the cached
projection array retains all k-points and only the returned array excludes
the finite-weight ones. -/
theorem claim2_hse_cache_amended {α : Type} (eig : List (List ℚ))
    (kpts : List Vec3) (w : List ℚ) (ef : ℚ) (proj : List (List α)) :
    (loadBandsFresh true eig kpts w ef).1.1 =
      (eig.map (fun band => band.map (fun e => e - ef))).map
        (selectCols (zeroWeightIdx w)) ∧
    (loadBandsFresh true eig kpts w ef).1.2 =
      selectCols (zeroWeightIdx w) kpts ∧
    (loadBandsFresh true eig kpts w ef).2 =
      (loadBandsFresh true eig kpts w ef).1 ∧
    (loadProjectedFresh true proj w).1 = proj ∧
    (loadProjectedFresh true proj w).2 =
      proj.map (selectCols (zeroWeightIdx w)) :=
  ⟨rfl, rfl, rfl, rfl, rfl⟩

/-- C5: for every signed spin-orbit projection array containing both
positive and negative entries, the separated "up" and "down" arrays are
element-wise non-negative and their element-wise difference (up minus
down) reconstructs the original signed array; the separation acts on the
signed values, before any squaring. -/
theorem claim5_pseudospin_separation (l : List ℚ)
    (_h : (∃ x ∈ l, 0 < x) ∧ ∃ x ∈ l, x < 0) :
    (∀ p ∈ separateProjections l, 0 ≤ p.1 ∧ 0 ≤ p.2) ∧
      (separateProjections l).map (fun p => p.1 - p.2) = l := by
  constructor
  · intro p hp
    obtain ⟨x, _, rfl⟩ := List.mem_map.mp hp
    constructor
    · by_cases hx : 0 < x <;> simp [sepUp, hx]
      linarith
    · by_cases hx : x < 0 <;> simp [sepDown, hx]
      linarith
  · have hpt : ∀ x : ℚ, sepUp x - sepDown x = x := by
      intro x
      unfold sepUp sepDown
      rcases lt_trichotomy x 0 with hx | hx | hx
      · rw [if_neg (by linarith), if_pos hx]
        ring
      · subst hx
        norm_num
      · rw [if_pos hx, if_neg (by linarith)]
        ring
    unfold separateProjections
    rw [List.map_map]
    have : ((fun p : ℚ × ℚ => p.1 - p.2) ∘ fun x => (sepUp x, sepDown x)) =
        fun x => x := by
      funext x
      exact hpt x
    rw [this, List.map_id']

theorem claim5_pseudospin_separation_witness :
    (∀ p ∈ separateProjections [(2 : ℚ), -3], 0 ≤ p.1 ∧ 0 ≤ p.2) ∧
      (separateProjections [(2 : ℚ), -3]).map (fun p => p.1 - p.2) =
        [2, -3] :=
  claim5_pseudospin_separation [2, -3]
    ⟨⟨2, by norm_num, by norm_num⟩, ⟨-3, by norm_num, by norm_num⟩⟩

/-- C7, counterexample: for the regular 2-segment dataset with `n = 10`
k-points per segment and KPOINTS labels `G X | X G`, `_get_kticks` does
not place its vertical tick lines at k-point indices `{0, 10, 20}`: the
computed positions are `[0, 9, 19]`. -/
theorem claim7_kticks_counterexample :
    (getKticks 10 ["G", "X", "X", "G"]).1 ≠ [0, 10, 20] ∧
      (getKticks 10 ["G", "X", "X", "G"]).1 = [0, 9, 19] := by
  decide

/-- C7, amended: for a regular (non-HSE, non-unfolded) dataset with 2
natural segments, `n = 10` k-points per segment, and high-symmetry labels
`G-X, X-G`, plotting the plain band structure places exactly 3 vertical
tick lines at k-point indices `{0, n-1, 2n-1} = {0, 9, 19}` with merged
labels `["$\Gamma$", "$X$", "$\Gamma$"]` (the literal `G` substituted by
`\Gamma`). -/
theorem claim7_kticks_amended :
    getKticks 10 ["G", "X", "X", "G"] =
      ([0, 9, 19], ["$\\Gamma$", "$X$", "$\\Gamma$"]) ∧
      (getKticks 10 ["G", "X", "X", "G"]).1.length = 3 := by
  decide

/-! # Distance-chaining lemmas for C4 -/

/-- The final cumulative distance of a chained per-segment distance list. -/
def lastOfLast (ds : List (List ℚ)) : ℚ := (ds.getLastD []).getLastD 0

theorem chain'_cons_cumsumFrom (acc : ℚ) (l : List ℚ)
    (h : ∀ x ∈ l, 0 ≤ x) :
    List.Chain' (· ≤ ·) (acc :: cumsum.cumsumFrom acc l) := by
  induction l generalizing acc with
  | nil => simp [cumsum.cumsumFrom]
  | cons x xs ih =>
    rw [cumsum.cumsumFrom, List.chain'_cons]
    refine ⟨by have := h x (List.mem_cons_self x xs); linarith, ?_⟩
    exact ih (acc + x) (fun y hy => h y (List.mem_cons_of_mem x hy))

theorem chain'_kdistSeg (nrm : Vec3 → ℚ) (hn : ∀ v, 0 ≤ nrm v)
    (kpts : List Vec3) : List.Chain' (· ≤ ·) (kdistSeg nrm kpts) := by
  unfold kdistSeg cumsum
  apply chain'_cons_cumsumFrom
  intro x hx
  obtain ⟨v, _, rfl⟩ := List.mem_map.mp hx
  exact hn v

theorem kdistSeg_ne_nil (nrm : Vec3 → ℚ) (kpts : List Vec3) :
    kdistSeg nrm kpts ≠ [] := by
  unfold kdistSeg
  simp

theorem kdistSeg_headD (nrm : Vec3 → ℚ) (kpts : List Vec3) :
    (kdistSeg nrm kpts).headD 0 = 0 := rfl

theorem getLastD_map_add (l : List ℚ) (c : ℚ) (h : l ≠ []) :
    (l.map (fun x => x + c)).getLastD 0 = l.getLastD 0 + c := by
  rw [List.getLastD_eq_getLast?, List.getLastD_eq_getLast?,
    List.getLast?_map]
  rcases hl : l.getLast? with _ | y
  · exact absurd (List.getLast?_eq_none_iff.mp hl) h
  · rfl

theorem headD_map_add (l : List ℚ) (c : ℚ) (hne : l ≠ [])
    (h : l.headD 0 = 0) :
    (l.map (fun x => x + c)).headD 0 = c := by
  cases l with
  | nil => exact absurd rfl hne
  | cons x xs =>
    simp only [List.headD_cons] at h
    simp [h]

theorem kDistancesFrom_mem_chain' (nrm : Vec3 → ℚ) (hn : ∀ v, 0 ≤ nrm v)
    (segs : List (List Vec3)) :
    ∀ offset, ∀ d ∈ kDistancesFrom nrm offset segs,
      List.Chain' (· ≤ ·) d := by
  induction segs with
  | nil => intro offset d hd; simp [kDistancesFrom] at hd
  | cons s rest ih =>
    intro offset d hd
    rw [kDistancesFrom] at hd
    rcases List.mem_cons.mp hd with rfl | hd
    · exact List.chain'_map_of_chain' _ (fun a b hab => by linarith)
        (chain'_kdistSeg nrm hn s)
    · exact ih _ d hd

theorem kDistancesFrom_boundary (nrm : Vec3 → ℚ)
    (segs : List (List Vec3)) :
    ∀ (prev : List ℚ) offset, offset = prev.getLastD 0 →
      List.Chain' (fun p n => n.headD 0 = p.getLastD 0)
        (prev :: kDistancesFrom nrm offset segs) := by
  induction segs with
  | nil => intro prev offset _; simp [kDistancesFrom]
  | cons s rest ih =>
    intro prev offset hoff
    rw [kDistancesFrom, List.chain'_cons]
    constructor
    · rw [headD_map_add _ _ (kdistSeg_ne_nil nrm s) (kdistSeg_headD nrm s),
        hoff]
    · exact ih _ _ rfl

theorem kDistancesFrom_total (nrm : Vec3 → ℚ) (segs : List (List Vec3)) :
    ∀ offset, segs ≠ [] →
      lastOfLast (kDistancesFrom nrm offset segs) =
        offset + (segs.map (fun s => (kdistSeg nrm s).getLastD 0)).sum := by
  induction segs with
  | nil => intro offset h; exact absurd rfl h
  | cons s rest ih =>
    intro offset _
    rw [kDistancesFrom]
    by_cases hr : rest = []
    · subst hr
      unfold lastOfLast
      show ((((kdistSeg nrm s).map (fun d => d + offset)) ::
          ([] : List (List ℚ))).getLastD []).getLastD 0 = _
      rw [List.getLastD_cons]
      show ((kdistSeg nrm s).map (fun d => d + offset)).getLastD 0 = _
      rw [getLastD_map_add _ _ (kdistSeg_ne_nil nrm s),
        List.map_cons, List.map_nil, List.sum_cons, List.sum_nil]
      ring
    · unfold lastOfLast at ih ⊢
      have hne : kDistancesFrom nrm
          (((kdistSeg nrm s).map (fun d => d + offset)).getLastD 0) rest ≠
            [] := by
        cases rest with
        | nil => exact absurd rfl hr
        | cons t ts => rw [kDistancesFrom]; simp
      rw [List.getLastD_cons]
      have hd : ∀ (l : List (List ℚ)) (d₁ d₂ : List ℚ), l ≠ [] →
          l.getLastD d₁ = l.getLastD d₂ := by
        intro l d₁ d₂ hl
        rw [List.getLastD_eq_getLast?, List.getLastD_eq_getLast?]
        rcases h : l.getLast? with _ | y
        · exact absurd (List.getLast?_eq_none_iff.mp h) hl
        · rfl
      rw [hd _ _ [] hne, ih _ hr]
      rw [getLastD_map_add _ _ (kdistSeg_ne_nil nrm s)]
      rw [List.map_cons, List.sum_cons]
      ring

/-- C4: for every resolved path, `_get_k_distance` produces per-segment
cumulative distance arrays that start at 0 on the first segment, are
non-decreasing within every segment (step lengths are norms, hence
non-negative), chain so that each subsequent segment starts exactly at the
previous segment's final cumulative distance, and whose total length
equals the sum of the per-segment spans.  The Euclidean norm of the
metric-transformed difference vectors is abstracted as any non-negative
step-length function `nrm`. -/
theorem claim4_kdistance_chaining (nrm : Vec3 → ℚ) (hn : ∀ v, 0 ≤ nrm v)
    (segs : List (List Vec3)) (hne : segs ≠ []) :
    ((kDistances nrm segs).headD []).headD 0 = 0 ∧
      (∀ d ∈ kDistances nrm segs, List.Chain' (· ≤ ·) d) ∧
      List.Chain' (fun p n => n.headD 0 = p.getLastD 0)
        (kDistances nrm segs) ∧
      lastOfLast (kDistances nrm segs) =
        (segs.map (fun s => (kdistSeg nrm s).getLastD 0)).sum := by
  cases segs with
  | nil => exact absurd rfl hne
  | cons s rest =>
    rw [kDistances]
    refine ⟨rfl, ?_, ?_, ?_⟩
    · intro d hd
      rcases List.mem_cons.mp hd with rfl | hd
      · exact chain'_kdistSeg nrm hn s
      · exact kDistancesFrom_mem_chain' nrm hn rest _ d hd
    · exact kDistancesFrom_boundary nrm rest _ _ rfl
    · by_cases hr : rest = []
      · subst hr
        unfold lastOfLast
        simp [kDistancesFrom]
      · unfold lastOfLast
        have hne2 : kDistancesFrom nrm ((kdistSeg nrm s).getLastD 0)
            rest ≠ [] := by
          cases rest with
          | nil => exact absurd rfl hr
          | cons t ts => rw [kDistancesFrom]; simp
        rw [List.getLastD_cons]
        have hd : ∀ (l : List (List ℚ)) (d₁ d₂ : List ℚ), l ≠ [] →
            l.getLastD d₁ = l.getLastD d₂ := by
          intro l d₁ d₂ hl
          rw [List.getLastD_eq_getLast?, List.getLastD_eq_getLast?]
          rcases h : l.getLast? with _ | y
          · exact absurd (List.getLast?_eq_none_iff.mp h) hl
          · rfl
        have := kDistancesFrom_total nrm rest ((kdistSeg nrm s).getLastD 0)
          hr
        unfold lastOfLast at this
        rw [hd _ _ [] hne2, this, List.map_cons, List.sum_cons]

theorem claim4_kdistance_chaining_witness :
    ((kDistances (fun v => |v.1| + |v.2.1| + |v.2.2|)
        [[((0 : ℚ), (0 : ℚ), (0 : ℚ)), (1, 0, 0)],
          [((0 : ℚ), (0 : ℚ), (0 : ℚ)), (0, 2, 0)]]).headD []).headD 0 =
        0 ∧
      (∀ d ∈ kDistances (fun v => |v.1| + |v.2.1| + |v.2.2|)
          [[((0 : ℚ), (0 : ℚ), (0 : ℚ)), (1, 0, 0)],
            [((0 : ℚ), (0 : ℚ), (0 : ℚ)), (0, 2, 0)]],
        List.Chain' (· ≤ ·) d) ∧
      List.Chain' (fun p n => n.headD 0 = p.getLastD 0)
        (kDistances (fun v => |v.1| + |v.2.1| + |v.2.2|)
          [[((0 : ℚ), (0 : ℚ), (0 : ℚ)), (1, 0, 0)],
            [((0 : ℚ), (0 : ℚ), (0 : ℚ)), (0, 2, 0)]]) ∧
      lastOfLast (kDistances (fun v => |v.1| + |v.2.1| + |v.2.2|)
          [[((0 : ℚ), (0 : ℚ), (0 : ℚ)), (1, 0, 0)],
            [((0 : ℚ), (0 : ℚ), (0 : ℚ)), (0, 2, 0)]]) =
        ([[((0 : ℚ), (0 : ℚ), (0 : ℚ)), (1, 0, 0)],
          [((0 : ℚ), (0 : ℚ), (0 : ℚ)), (0, 2, 0)]].map
          (fun s => (kdistSeg (fun v => |v.1| + |v.2.1| + |v.2.2|)
            s).getLastD 0)).sum :=
  claim4_kdistance_chaining (fun v => |v.1| + |v.2.1| + |v.2.2|)
    (fun v => by positivity)
    [[((0 : ℚ), (0 : ℚ), (0 : ℚ)), (1, 0, 0)],
      [((0 : ℚ), (0 : ℚ), (0 : ℚ)), (0, 2, 0)]]
    (by simp)

/-! # Aggregation lemmas for C6 -/

theorem sum_map_add_distrib {β : Type} (l : List β) (f g : β → ℚ) :
    (l.map (fun i => f i + g i)).sum = (l.map f).sum + (l.map g).sum := by
  induction l with
  | nil => simp
  | cons x xs ih =>
    simp only [List.map_cons, List.sum_cons, ih]
    ring

theorem sum_map_zero {β : Type} (l : List β) :
    (l.map (fun _ => (0 : ℚ))).sum = 0 := by
  induction l with
  | nil => rfl
  | cons x xs ih => simp [ih]

theorem sum_map_filter_eq (p : ℕ → Bool) (f : ℕ → ℚ) (l : List ℕ) :
    ((l.filter p).map f).sum = (l.map (fun i => if p i then f i else 0)).sum := by
  induction l with
  | nil => rfl
  | cons x xs ih =>
    by_cases hx : p x <;> simp [List.filter_cons, hx, ih]

theorem sum_map_swap {α β : Type} (es : List α) (is : List β)
    (g : α → β → ℚ) :
    (es.map (fun e => (is.map (g e)).sum)).sum =
      (is.map (fun i => (es.map (fun e => g e i)).sum)).sum := by
  induction es with
  | nil => simp [sum_map_zero]
  | cons e es ih =>
    rw [List.map_cons, List.sum_cons, ih, ← sum_map_add_distrib]
    refine congrArg List.sum (List.map_congr_left fun i _ => ?_)
    rw [List.map_cons, List.sum_cons]

theorem sum_map_ite_of_not_mem (l : List String) (a : String) (c : ℚ)
    (h : a ∉ l) :
    (l.map (fun e => if a = e then c else 0)).sum = 0 := by
  induction l with
  | nil => rfl
  | cons b bs ih =>
    have hab : a ≠ b := fun hc => h (hc ▸ List.mem_cons_self b bs)
    rw [List.map_cons, List.sum_cons, if_neg hab,
      ih (fun hc => h (List.mem_cons_of_mem b hc)), zero_add]

theorem sum_map_ite_of_nodup (l : List String) (a : String) (c : ℚ)
    (hnd : l.Nodup) (ha : a ∈ l) :
    (l.map (fun e => if a = e then c else 0)).sum = c := by
  induction l with
  | nil => cases ha
  | cons b bs ih =>
    rw [List.nodup_cons] at hnd
    rcases List.mem_cons.mp ha with rfl | ha
    · rw [List.map_cons, List.sum_cons, if_pos rfl,
        sum_map_ite_of_not_mem bs a c hnd.1, add_zero]
    · have hab : a ≠ b := fun hc => hnd.1 (hc ▸ ha)
      rw [List.map_cons, List.sum_cons, if_neg hab, ih hnd.2 ha, zero_add]

theorem vecSum_length (L : ℕ) (vs : List (List ℚ))
    (h : ∀ v ∈ vs, v.length = L) : (vecSum L vs).length = L := by
  induction vs with
  | nil => simp [vecSum]
  | cons v vs ih =>
    rw [vecSum]
    unfold vecAdd
    rw [List.length_zipWith, h v (List.mem_cons_self v vs),
      ih (fun w hw => h w (List.mem_cons_of_mem v hw)), min_self]

theorem sum_vecAdd (a : List ℚ) :
    ∀ b : List ℚ, a.length = b.length →
      (vecAdd a b).sum = a.sum + b.sum := by
  induction a with
  | nil =>
    intro b hb
    have : b = [] := List.length_eq_zero.mp hb.symm
    subst this
    simp [vecAdd]
  | cons x xs ih =>
    intro b hb
    cases b with
    | nil => simp at hb
    | cons y ys =>
      simp only [List.length_cons, Nat.add_right_cancel_iff] at hb
      unfold vecAdd at ih ⊢
      rw [List.zipWith_cons_cons, List.sum_cons, List.sum_cons,
        List.sum_cons, ih ys hb]
      ring

theorem sum_vecSum (L : ℕ) (vs : List (List ℚ))
    (h : ∀ v ∈ vs, v.length = L) :
    (vecSum L vs).sum = (vs.map List.sum).sum := by
  induction vs with
  | nil => simp [vecSum]
  | cons v vs ih =>
    rw [vecSum, List.map_cons, List.sum_cons,
      sum_vecAdd v (vecSum L vs) (by
        rw [h v (List.mem_cons_self v vs),
          vecSum_length L vs (fun w hw => h w (List.mem_cons_of_mem v hw))]),
      ih (fun w hw => h w (List.mem_cons_of_mem v hw))]

theorem elementList_length :
    ∀ (symbols : List String) (natoms : List ℕ),
      natoms.length = symbols.length →
      (elementList symbols natoms).length = natoms.sum := by
  intro symbols
  induction symbols with
  | nil =>
    intro natoms h
    have : natoms = [] := List.length_eq_zero.mp h
    subst this
    rfl
  | cons s ss ih =>
    intro natoms h
    cases natoms with
    | nil => simp at h
    | cons m ms =>
      simp only [List.length_cons, Nat.add_right_cancel_iff] at h
      unfold elementList at ih ⊢
      rw [List.zip_cons_cons, List.flatMap_cons, List.length_append,
        List.length_replicate, ih ms h, List.sum_cons]

theorem mem_symbols_of_elementList_get? (symbols : List String)
    (natoms : List ℕ) (i : ℕ) (s : String)
    (h : (elementList symbols natoms).get? i = some s) : s ∈ symbols := by
  have hmem : s ∈ elementList symbols natoms := List.get?_mem h
  unfold elementList at hmem
  obtain ⟨p, hp, hs⟩ := List.mem_flatMap.mp hmem
  have : s = p.1 := List.eq_of_mem_replicate hs
  subst this
  exact (List.of_mem_zip hp).1

theorem filterMap_get?_eq_map {α : Type} (l : List α) (d : α) :
    ∀ idxs : List ℕ, (∀ i ∈ idxs, i < l.length) →
      idxs.filterMap (fun i => l.get? i) =
        idxs.map (fun i => (l.get? i).getD d) := by
  intro idxs
  induction idxs with
  | nil => intro _; rfl
  | cons i is ih =>
    intro h
    have hi : i < l.length := h i (List.mem_cons_self i is)
    obtain ⟨a, ha⟩ := Option.isSome_iff_exists.mp
      ((get?_isSome_iff l i).mpr hi)
    rw [List.filterMap_cons, ha, List.map_cons, ha,
      ih (fun j hj => h j (List.mem_cons_of_mem i hj))]
    rfl

theorem map_range_getD {α : Type} (l : List α) (d : α) :
    (List.range l.length).map (fun i => (l.get? i).getD d) = l := by
  induction l with
  | nil => rfl
  | cons a as ih =>
    rw [List.length_cons, List.range_succ_eq_map, List.map_cons,
      List.map_map]
    congr 1

/-- C6: summing the by-element aggregation of `_sum_elements` over the
structure's full element set equals summing the by-atom aggregation of
`_sum_atoms` over all atom indices, at every `(band, kpoint)` cell of the
projection tensor — the per-element atom index sets partition the atoms,
so no weight is double-counted or lost. -/
theorem claim6_element_atom_mass_conservation (symbols : List String)
    (natoms : List ℕ) (L : ℕ) (cell : List (List ℚ))
    (hnd : symbols.Nodup) (hlen : natoms.length = symbols.length)
    (hcell : cell.length = natoms.sum)
    (hrow : ∀ row ∈ cell, row.length = L) :
    (sumElementsCell symbols natoms L symbols cell).sum =
      (sumAtomsCell cell).sum := by
  have hn : (elementList symbols natoms).length = cell.length := by
    rw [elementList_length symbols natoms hlen, hcell]
  unfold sumElementsCell elementOrbitalsCell elementIndices sumAtomsCell
  rw [List.map_map, List.map_map]
  show (symbols.map (fun e =>
      (vecSum L (((List.range (elementList symbols natoms).length).filter
        (fun i => (elementList symbols natoms).get? i = some e)).filterMap
          (fun i => cell.get? i))).sum)).sum =
    (cell.map (fun row => row.sum)).sum
  have hinrange : ∀ e : String, ∀ i ∈ (List.range
      (elementList symbols natoms).length).filter
      (fun i => (elementList symbols natoms).get? i = some e),
      i < cell.length := by
    intro e i hi
    rw [← hn]
    exact List.mem_range.mp (List.mem_filter.mp hi).1
  have step1 : ∀ e ∈ symbols,
      (vecSum L (((List.range (elementList symbols natoms).length).filter
          (fun i => (elementList symbols natoms).get? i = some e)).filterMap
            (fun i => cell.get? i))).sum =
      (((List.range (elementList symbols natoms).length).filter
          (fun i => (elementList symbols natoms).get? i = some e)).map
        (fun i => ((cell.get? i).getD []).sum)).sum := by
    intro e _
    rw [sum_vecSum L _ (by
      intro v hv
      obtain ⟨i, _, hi⟩ := List.mem_filterMap.mp hv
      exact hrow v (List.get?_mem hi))]
    rw [filterMap_get?_eq_map cell [] _ (hinrange e), List.map_map]
    rfl
  rw [List.map_congr_left step1]
  have step2 : ∀ e ∈ symbols,
      (((List.range (elementList symbols natoms).length).filter
          (fun i => (elementList symbols natoms).get? i = some e)).map
        (fun i => ((cell.get? i).getD []).sum)).sum =
      ((List.range (elementList symbols natoms).length).map
        (fun i => if (elementList symbols natoms).get? i = some e then
          ((cell.get? i).getD []).sum else 0)).sum := by
    intro e _
    rw [sum_map_filter_eq]
    simp only [decide_eq_true_eq]
  rw [List.map_congr_left step2, sum_map_swap]
  have step3 : ∀ i ∈ List.range (elementList symbols natoms).length,
      (symbols.map (fun e =>
        if (elementList symbols natoms).get? i = some e then
          ((cell.get? i).getD []).sum else 0)).sum =
      ((cell.get? i).getD []).sum := by
    intro i hi
    have hi' : i < (elementList symbols natoms).length :=
      List.mem_range.mp hi
    obtain ⟨s, hs⟩ := Option.isSome_iff_exists.mp
      ((get?_isSome_iff _ i).mpr hi')
    have hsm : s ∈ symbols :=
      mem_symbols_of_elementList_get? symbols natoms i s hs
    have : (fun e => if (elementList symbols natoms).get? i = some e then
        ((cell.get? i).getD []).sum else 0) =
        (fun e => if s = e then ((cell.get? i).getD []).sum else 0) := by
      funext e
      rw [hs]
      simp only [Option.some.injEq]
    rw [this]
    exact sum_map_ite_of_nodup symbols s _ hnd hsm
  rw [List.map_congr_left step3, hn]
  have : (fun i => ((cell.get? i).getD []).sum) =
      (List.sum ∘ fun i => (cell.get? i).getD []) := rfl
  rw [this, ← List.map_map, map_range_getD cell []]

theorem claim6_element_atom_mass_conservation_witness :
    (sumElementsCell ["In", "As"] [1, 2] 3 ["In", "As"]
      [[1, 2, 3], [4, 5, 6], [7, 8, 9]]).sum =
      (sumAtomsCell [[1, 2, 3], [4, 5, 6], [7, 8, 9]]).sum :=
  claim6_element_atom_mass_conservation ["In", "As"] [1, 2] 3
    [[1, 2, 3], [4, 5, 6], [7, 8, 9]] (by decide) rfl rfl
    (by intro row hrow; fin_cases hrow <;> rfl)

/-! # Interpolation lemmas for C9 -/

theorem getD_const_of_lt (l : List ℚ) (c : ℚ) (i : ℕ)
    (h : ∀ y ∈ l, y = c) (hi : i < l.length) : l.getD i 0 = c := by
  obtain ⟨a, ha⟩ := Option.isSome_iff_exists.mp ((get?_isSome_iff l i).mpr hi)
  rw [List.getD_eq_getElem?_getD, ← List.get?_eq_getElem?, ha]
  exact h a (List.get?_mem ha)

theorem getD_zero_of_all (l : List ℚ) (i : ℕ) (h : ∀ x ∈ l, x = 0) :
    l.getD i 0 = 0 := by
  rw [List.getD_eq_getElem?_getD, ← List.get?_eq_getElem?]
  rcases ha : l.get? i with _ | a
  · rfl
  · exact h a (List.get?_mem ha)

theorem thomasFwd_snd_zero (rows : List (ℚ × ℚ × ℚ × ℚ)) :
    (∀ r ∈ rows, r.2.2.2 = 0) → ∀ cp : ℚ, ∀ p ∈ thomasFwd cp 0 rows,
      p.2 = 0 := by
  induction rows with
  | nil =>
    intro _ cp p hp
    simp [thomasFwd] at hp
  | cons r rest ih =>
    intro h cp p hp
    obtain ⟨a, b, c, d⟩ := r
    have hd : d = 0 := h (a, b, c, d) (List.mem_cons_self _ _)
    subst hd
    simp only [thomasFwd] at hp
    rw [show (0 : ℚ) - a * 0 = 0 by ring, zero_div] at hp
    rcases List.mem_cons.mp hp with rfl | hp
    · rfl
    · exact ih (fun r hr => h r (List.mem_cons_of_mem _ hr)) _ p hp

theorem thomasBack_zero (l : List (ℚ × ℚ)) (h : ∀ p ∈ l, p.2 = 0) :
    ∀ x ∈ thomasBack l, x = 0 := by
  induction l with
  | nil =>
    intro x hx
    simp [thomasBack] at hx
  | cons p rest ih =>
    intro x hx
    obtain ⟨c, d⟩ := p
    have hd : d = 0 := h (c, d) (List.mem_cons_self _ _)
    subst hd
    have hall := ih (fun q hq => h q (List.mem_cons_of_mem _ hq))
    have hhead : (thomasBack rest).headD 0 = 0 := by
      rcases hb : thomasBack rest with _ | ⟨y, ys⟩
      · rfl
      · exact hall y (by rw [hb]; exact List.mem_cons_self y ys)
    simp only [thomasBack] at hx
    rcases List.mem_cons.mp hx with rfl | hx
    · rw [hhead]
      ring
    · exact hall x hx

theorem thomas_zero (rows : List (ℚ × ℚ × ℚ × ℚ))
    (h : ∀ r ∈ rows, r.2.2.2 = 0) : ∀ x ∈ thomas rows, x = 0 := by
  intro x hx
  exact thomasBack_zero _ (thomasFwd_snd_zero rows h 0) x hx

theorem splineRows_rhs_zero (xs ys : List ℚ) (c : ℚ)
    (hlen : ys.length = xs.length) (hy : ∀ y ∈ ys, y = c) :
    ∀ r ∈ splineRows xs ys, r.2.2.2 = 0 := by
  intro r hr
  unfold splineRows at hr
  obtain ⟨i, hi, rfl⟩ := List.mem_map.mp hr
  rw [List.mem_range'_1] at hi
  have h1 : i - 1 < ys.length := by omega
  have h2 : i < ys.length := by omega
  have h3 : i + 1 < ys.length := by omega
  show 6 * ((ys.getD (i + 1) 0 - ys.getD i 0) / _ -
    (ys.getD i 0 - ys.getD (i - 1) 0) / _) = 0
  rw [getD_const_of_lt ys c _ hy h1, getD_const_of_lt ys c _ hy h2,
    getD_const_of_lt ys c _ hy h3, sub_self, zero_div, zero_div]
  ring

theorem splineMs_zero (xs ys : List ℚ) (c : ℚ)
    (hlen : ys.length = xs.length) (hy : ∀ y ∈ ys, y = c) :
    ∀ m ∈ splineMs xs ys, m = 0 := by
  intro m hm
  unfold splineMs at hm
  rcases List.mem_cons.mp hm with rfl | hm
  · rfl
  · rcases List.mem_append.mp hm with hm | hm
    · exact thomas_zero _ (splineRows_rhs_zero xs ys c hlen hy) m hm
    · rcases List.mem_singleton.mp hm with rfl
      rfl

theorem findInterval_le (xs : List ℚ) (q : ℚ) :
    findInterval xs q ≤ xs.length - 2 := by
  unfold findInterval
  exact min_le_right _ _

theorem linInterp_const (xs ys : List ℚ) (c q : ℚ)
    (hlen : ys.length = xs.length) (h2 : 2 ≤ xs.length)
    (hy : ∀ y ∈ ys, y = c) : linInterp xs ys q = c := by
  have hle := findInterval_le xs q
  have hi : findInterval xs q < ys.length := by omega
  have hi1 : findInterval xs q + 1 < ys.length := by omega
  unfold linInterp
  dsimp only
  rw [getD_const_of_lt ys c _ hy hi, getD_const_of_lt ys c _ hy hi1,
    sub_self, zero_mul, zero_div, add_zero]

theorem cubicInterp_const (xs ys : List ℚ) (c q : ℚ)
    (hlen : ys.length = xs.length) (h2 : 2 ≤ xs.length)
    (hy : ∀ y ∈ ys, y = c) : cubicInterp xs ys q = c := by
  have hle := findInterval_le xs q
  have hi : findInterval xs q < ys.length := by omega
  have hi1 : findInterval xs q + 1 < ys.length := by omega
  have hms := splineMs_zero xs ys c hlen hy
  unfold cubicInterp
  dsimp only
  rw [getD_const_of_lt ys c _ hy hi, getD_const_of_lt ys c _ hy hi1,
    getD_zero_of_all _ _ hms, getD_zero_of_all _ _ hms, sub_self,
    zero_div]
  ring

/-- C9: on a segment whose data is constant, `_get_interpolated_data_segment`
returns that constant at every one of the `new_n` new grid points, in both
the cubic mode used for eigenvalues (no clamping) and the linear mode used
for weights (`crop_zero=True`, which leaves a non-negative constant
untouched).  Over `ℚ` the result is exact, within any floating
tolerance. -/
theorem claim9_interpolation_constant (wv data : List ℚ) (c : ℚ)
    (newN : ℕ) (hlen : data.length = wv.length) (h2 : 2 ≤ wv.length)
    (hconst : ∀ y ∈ data, y = c) (hc : 0 ≤ c) :
    (∀ v ∈ (getInterpolatedDataSegment wv data newN false true).2,
      v = c) ∧
    (∀ v ∈ (getInterpolatedDataSegment wv data newN true false).2,
      v = c) := by
  constructor
  · intro v hv
    unfold getInterpolatedDataSegment at hv
    simp only [if_pos, if_neg, Bool.false_eq_true, if_false,
      if_true] at hv
    obtain ⟨q, _, rfl⟩ := List.mem_map.mp hv
    exact cubicInterp_const wv data c q hlen h2 hconst
  · intro v hv
    unfold getInterpolatedDataSegment at hv
    simp only [Bool.false_eq_true, if_false, if_true] at hv
    obtain ⟨w, hw, rfl⟩ := List.mem_map.mp hv
    obtain ⟨q, _, rfl⟩ := List.mem_map.mp hw
    rw [linInterp_const wv data c q hlen h2 hconst]
    rw [if_neg (not_lt.mpr hc)]

theorem claim9_interpolation_constant_witness :
    (∀ v ∈ (getInterpolatedDataSegment [0, 1, 2, 3] [5, 5, 5, 5] 7
        false true).2, v = 5) ∧
    (∀ v ∈ (getInterpolatedDataSegment [0, 1, 2, 3] [5, 5, 5, 5] 7
        true false).2, v = 5) :=
  claim9_interpolation_constant [0, 1, 2, 3] [5, 5, 5, 5] 5 7 rfl
    (by norm_num) (by intro y hy; fin_cases hy <;> rfl) (by norm_num)

end Bdwork
